import Mathlib

/-!
Shallow embedding of the structz repository (anonymous structs for Rust,
built on top of typed strings and heterogeneous tuples) together with
proofs about its typed-string encoding, canonicalization, surface parsing
and field-lookup operations.

Modelling conventions:
* A type-level encoded name (`tuple_t![Character<c1>, ..., Character<cn>]`,
  produced by the `ident!` / `string!` macros of stringz-macros) is modelled
  as the list of its character parameters, `List Char`.  Two such Rust types
  are equal iff their character sequences are equal, which is exactly
  equality of the modelling lists.
* Trait-method availability (an `impl` existing or not) is modelled by
  `Option`: `none` means no implementation can be found, i.e. the Rust
  program fails to type-check at that use site.
* The token streams consumed by the surface macros are modelled by the
  `Tok` type below; `syn`'s `Expr` values are opaque tokens.
-/

/-- A character marker type `Character<C>` of stringz is identified by its
single `char` parameter, so at the model level a marker is just a `Char`. -/
abbrev CharacterMarker := Char

/-- Embedding of the `string!` / `ident!` macros (stringz-macros `src/lib.rs`):
the macro maps each character of the input text, in order, to the marker type
`Character<ch>` and builds the tuple type of those markers.  The resulting
type is modelled by the list of characters of the text. -/
def encode (s : String) : List Char :=
  s.toList

/-- Embedding of the trait method `TypedString::value` (stringz
`src/lib.rs`, lines 117-132).  There is an impl for
`Tuple<Character<C>, Unit>` returning `C.to_string()`, and an impl for
`Tuple<Character<C>, Other>` with `Other: TypedString` returning
`format!("{}{}", C, Other::value())`.  No impl exists for the empty tuple
`Unit`, so the method is modelled as an `Option`, `none` on the empty list. -/
def TypedString.value : List Char → Option String
  | [] => none
  | [c] => some c.toString
  | c :: d :: rest => (TypedString.value (d :: rest)).map (fun s => c.toString ++ s)

/-- Embedding of the `concatstr!` macro (stringz `src/lib.rs`, lines 150-158):
it delegates to tuplez's `TupleLike::JoinOutput`, which joins the two tuple
types element-for-element, i.e. concatenates the character sequences. -/
def concatstr (a b : List Char) : List Char :=
  a ++ b

/-- Helper: `TypedString.value` on any non-empty character list rebuilds the
string made of exactly those characters. -/
theorem TypedString.value_cons (c : Char) (l : List Char) :
    TypedString.value (c :: l) = some (String.mk (c :: l)) := by
  induction l generalizing c with
  | nil => rfl
  | cons d rest ih =>
    simp only [TypedString.value]
    rw [ih d]
    simp only [Option.map_some']
    congr 1

/-- C1: the encoding of compile-time text into a type built from `Character`
markers is injective: distinct texts always produce distinct encoded name
types (character sequences). -/
theorem encode_injective (s1 s2 : String) (h : s1 ≠ s2) :
    encode s1 ≠ encode s2 := by
  intro he
  exact h (String.ext he)

/-- Witness for C1 at the concrete pair of texts `"ab"` and `"ba"`. -/
theorem encode_injective_witness :
    ("ab" : String) ≠ "ba" ∧ encode "ab" ≠ encode "ba" :=
  ⟨by decide, encode_injective "ab" "ba" (by decide)⟩

/-- C3 (counterexample): at the concrete text `""` the round-trip law fails,
because no `TypedString` impl exists for the empty encoded name: `recover`
returns no value at all rather than `""`. -/
theorem recover_encode_empty_fails :
    TypedString.value (encode "") ≠ some "" := by
  decide

/-- C3 (amended): for every non-empty compile-time text `s`, recovering the
encoded name of `s` yields `s` back. -/
theorem recover_encode (s : String) (h : s ≠ "") :
    TypedString.value (encode s) = some s := by
  match hs : s with
  | ⟨[]⟩ => exact absurd rfl h
  | ⟨c :: l⟩ =>
    show TypedString.value (String.toList ⟨c :: l⟩) = some ⟨c :: l⟩
    rw [show String.toList ⟨c :: l⟩ = c :: l from rfl]
    exact TypedString.value_cons c l

/-- Witness for C3 (amended) at the concrete text `"ab"`. -/
theorem recover_encode_witness :
    ("ab" : String) ≠ "" ∧ TypedString.value (encode "ab") = some "ab" :=
  ⟨by decide, recover_encode "ab" (by decide)⟩

/-- C10: the recover capability (`TypedString::value`) is available exactly
for non-empty encoded names: `encode s` has a recoverable value iff `s` is
not the empty text, and on the empty text the encoding is the empty marker
sequence, for which no impl exists. -/
theorem value_encode_none_iff (s : String) :
    TypedString.value (encode s) = none ↔ s = "" := by
  constructor
  · intro hv
    match hs : s with
    | ⟨[]⟩ => rfl
    | ⟨c :: l⟩ =>
      rw [show encode ⟨c :: l⟩ = c :: l from rfl, TypedString.value_cons] at hv
      exact absurd hv (by simp)
  · intro hs
    subst hs
    rfl

/-- C8: recovering the concatenation of two encoded names yields the string
concatenation of the two recovered texts (whenever both recover, i.e. both
names are non-empty). -/
theorem value_concatstr (a b : List Char) (sa sb : String)
    (ha : TypedString.value a = some sa) (hb : TypedString.value b = some sb) :
    TypedString.value (concatstr a b) = some (sa ++ sb) := by
  match a, b with
  | [], _ => simp [TypedString.value] at ha
  | _, [] => simp [TypedString.value] at hb
  | c :: l, d :: m =>
    rw [TypedString.value_cons] at ha hb
    have hsa := Option.some.inj ha
    have hsb := Option.some.inj hb
    subst hsa hsb
    show TypedString.value ((c :: l) ++ (d :: m)) = _
    rw [List.cons_append, TypedString.value_cons]
    congr 1

/-- Witness for C8 at the concrete pair `"foo"`, `"bar"`: the concatenation
recovers as `"foobar"`. -/
theorem value_concatstr_witness :
    TypedString.value (encode "foo") = some "foo" ∧
    TypedString.value (encode "bar") = some "bar" ∧
    TypedString.value (concatstr (encode "foo") (encode "bar")) = some "foobar" :=
  ⟨by decide, by decide,
    value_concatstr (encode "foo") (encode "bar") "foo" "bar" (by decide) (by decide)⟩

/-- Token model of the input streams consumed by the `stru!` / `stru_t!`
macro argument grammar (structz `src/parse.rs`).  Field names appear as
`ident` tokens; the expressions (or types) after a colon are opaque `expr`
tokens, standing for what `syn`'s `Expr`/`Type` parse consumes in one step. -/
inductive Tok (E : Type) where
  | ident (name : String)
  | comma
  | colon
  | expr (e : E)
deriving DecidableEq, Repr

/-- Embedding of the loop body of `AnonymousStruct::parse` (structz
`src/parse.rs`, lines 12-45): repeatedly parse an identifier, reject it if a
field of the same name was already pushed, then look ahead: end of input
pushes a shorthand field and stops; a comma pushes a shorthand field and
continues; a colon parses one expression, pushes the field, and then
requires end of input or a comma.  When the lookahead sees neither a comma
nor a colon, the Rust loop body simply falls through and re-enters the loop
with the identifier dropped and the input otherwise unconsumed; the model
reproduces that fall-through faithfully. -/
def parseLoop {E : Type} (fields : List (String × Option E)) (toks : List (Tok E)) :
    Except String (List (String × Option E)) :=
  match toks with
  | [] => .ok fields
  | .ident n :: rest =>
    if fields.any (fun p => p.1 = n) then .error "field already defined"
    else
      match rest with
      | [] => .ok (fields ++ [(n, none)])
      | .comma :: rest2 => parseLoop (fields ++ [(n, none)]) rest2
      | .colon :: .expr e :: rest3 =>
        match rest3 with
        | [] => .ok (fields ++ [(n, some e)])
        | .comma :: rest4 => parseLoop (fields ++ [(n, some e)]) rest4
        | _ :: _ => .error "expected comma"
      | .colon :: _ => .error "expected expression"
      | t :: rest2 => parseLoop fields (t :: rest2)
  | _ :: _ => .error "expected identifier"
termination_by toks.length
decreasing_by
  all_goals simp_arith

/-- Embedding of the final line of `AnonymousStruct::parse` /
`AnonymousStructType::parse`: `fields.sort_by(|x, y| x.0.cmp(&y.0))`, a
stable sort of the field pairs by field-name text. -/
def sortFields {α : Type} (l : List (String × α)) : List (String × α) :=
  l.mergeSort (fun x y => decide (x.1 ≤ y.1))

/-- Embedding of `AnonymousStruct::parse` as a whole: run the loop starting
from an empty field list, then stable-sort the collected fields by name. -/
def parseStru {E : Type} (toks : List (Tok E)) : Except String (List (String × Option E)) :=
  (parseLoop [] toks).map sortFields

/-- Embedding of the duplicate check of the parse loop in isolation: pushing
one (name, payload) pair onto the already-collected fields, rejecting it
with the source's diagnostic when a field of that name was already pushed. -/
def insertField {α : Type} (fields : List (String × α)) (x : String × α) :
    Except String (List (String × α)) :=
  if fields.any (fun p => p.1 = x.1) then .error "field already defined"
  else .ok (fields ++ [x])

/-- List-level form of the collection phase of the parse loop: push the
entries one by one through the duplicate check. -/
def checkFields {α : Type} (fields : List (String × α)) :
    List (String × α) → Except String (List (String × α))
  | [] => .ok fields
  | x :: xs =>
    match insertField fields x with
    | .error e => .error e
    | .ok f => checkFields f xs

/-- Canonicalization (spec section 4.3) at the field-list level: duplicate
rejection followed by the stable lexicographic sort by field name.  This is
exactly what `AnonymousStruct::parse` / `AnonymousStructType::parse` compute
on a well-formed comma-separated field list. -/
def canonicalize {α : Type} (l : List (String × α)) : Except String (List (String × α)) :=
  (checkFields [] l).map sortFields

/-- Token rendering of a single well-formed field entry: `name: expr` or the
bare `name` shorthand. -/
def entryToks {E : Type} : String × Option E → List (Tok E)
  | (n, some e) => [.ident n, .colon, .expr e]
  | (n, none) => [.ident n]

/-- Token rendering of a well-formed comma-separated field list (no trailing
comma). -/
def entriesToks {E : Type} : List (String × Option E) → List (Tok E)
  | [] => []
  | [x] => entryToks x
  | x :: y :: xs => entryToks x ++ .comma :: entriesToks (y :: xs)

/-- Helper: a successful `any` name test yields membership of the name among
the mapped field names. -/
theorem mem_map_fst_of_any {α : Type} {fields : List (String × α)} {n : String}
    (h : fields.any (fun p => p.1 = n) = true) : n ∈ fields.map Prod.fst := by
  simp only [List.any_eq_true, decide_eq_true_eq] at h
  obtain ⟨p, hp, hpn⟩ := h
  exact List.mem_map.mpr ⟨p, hp, hpn⟩

/-- Helper: membership of a name among the mapped field names makes the
duplicate test succeed. -/
theorem any_of_mem_map_fst {α : Type} {fields : List (String × α)} {n : String}
    (h : n ∈ fields.map Prod.fst) : fields.any (fun p => p.1 = n) = true := by
  simp only [List.any_eq_true, decide_eq_true_eq]
  obtain ⟨p, hp, hpn⟩ := List.mem_map.mp h
  exact ⟨p, hp, hpn⟩

/-- Helper: the token-level parse loop computes exactly the list-level
duplicate-checking collection on a well-formed comma-separated field list. -/
theorem parseLoop_entriesToks {E : Type} (entries : List (String × Option E))
    (fields : List (String × Option E)) :
    parseLoop fields (entriesToks entries) = checkFields fields entries := by
  induction entries generalizing fields with
  | nil => simp [entriesToks, parseLoop, checkFields]
  | cons x xs ih =>
    cases xs with
    | nil =>
      obtain ⟨n, e⟩ := x
      cases e with
      | none =>
        simp [entriesToks, entryToks, parseLoop, checkFields, insertField]
        split <;> simp
      | some e =>
        simp [entriesToks, entryToks, parseLoop, checkFields, insertField]
        split <;> simp
    | cons y ys =>
      obtain ⟨n, e⟩ := x
      cases e with
      | none =>
        simp [entriesToks, entryToks, parseLoop, checkFields, insertField]
        split
        · simp
        · exact ih _
      | some e =>
        simp [entriesToks, entryToks, parseLoop, checkFields, insertField]
        split
        · simp
        · exact ih _

/-- Helper: collecting a duplicate-free entry list never errors and keeps the
entries in their given order. -/
theorem checkFields_ok {α : Type} (l fields : List (String × α))
    (h : ((fields ++ l).map Prod.fst).Nodup) :
    checkFields fields l = .ok (fields ++ l) := by
  induction l generalizing fields with
  | nil => simp [checkFields]
  | cons x xs ih =>
    have hdisj : (fields.map Prod.fst).Disjoint ((x :: xs).map Prod.fst) := by
      rw [List.map_append] at h
      exact (List.nodup_append.mp h).2.2
    have hx : ¬ (fields.any (fun p => p.1 = x.1) = true) := by
      intro hany
      exact hdisj (mem_map_fst_of_any hany) (by simp)
    have hassoc : (fields ++ [x]) ++ xs = fields ++ x :: xs := by simp
    rw [checkFields, insertField, if_neg hx]
    show checkFields (fields ++ [x]) xs = Except.ok (fields ++ x :: xs)
    rw [ih (fields ++ [x]) (by rw [hassoc]; exact h), hassoc]

/-- Helper: collecting an entry list with a duplicated name always fails
with the source's duplicate-field diagnostic. -/
theorem checkFields_fail {α : Type} (l fields : List (String × α))
    (hf : (fields.map Prod.fst).Nodup)
    (h : ¬ ((fields ++ l).map Prod.fst).Nodup) :
    checkFields fields l = .error "field already defined" := by
  induction l generalizing fields with
  | nil => simp at h; exact absurd hf h
  | cons x xs ih =>
    by_cases hx : fields.any (fun p => p.1 = x.1) = true
    · rw [checkFields, insertField, if_pos hx]
    · rw [checkFields, insertField, if_neg hx]
      show checkFields (fields ++ [x]) xs = Except.error "field already defined"
      have hnotmem : x.1 ∉ fields.map Prod.fst := fun hm => hx (any_of_mem_map_fst hm)
      have hf' : ((fields ++ [x]).map Prod.fst).Nodup := by
        rw [List.map_append, List.nodup_append]
        refine ⟨hf, by simp, ?_⟩
        intro a ha hax
        simp at hax
        subst hax
        exact hnotmem ha
      have hassoc : (fields ++ [x]) ++ xs = fields ++ x :: xs := by simp
      exact ih (fields ++ [x]) hf' (by rw [hassoc]; exact h)

/-- Helper: the canonical sort is a permutation of its input (Rust's
`sort_by` reorders in place). -/
theorem sortFields_perm {α : Type} (l : List (String × α)) : (sortFields l).Perm l :=
  List.mergeSort_perm l _

/-- Helper: the canonical sort orders the field pairs by lexicographic
comparison of the field-name text. -/
theorem sortFields_sorted {α : Type} (l : List (String × α)) :
    (sortFields l).Pairwise (fun a b => a.1 ≤ b.1) := by
  have h := @List.sorted_mergeSort (String × α) (fun x y => decide (x.1 ≤ y.1))
    (fun a b c hab hbc => by
      simp only [decide_eq_true_eq] at hab hbc ⊢
      exact le_trans hab hbc)
    (fun a b => by
      simp only [Bool.or_eq_true, decide_eq_true_eq]
      exact le_total a.1 b.1) l
  exact h.imp (fun hab => of_decide_eq_true hab)

/-- Helper: with pairwise-distinct field names the canonical sort is even
strictly ordered by name. -/
theorem sortFields_strict {α : Type} (l : List (String × α))
    (hnd : (l.map Prod.fst).Nodup) :
    (sortFields l).Pairwise (fun a b => a.1 < b.1) := by
  have hnd' : ((sortFields l).map Prod.fst).Nodup :=
    (((sortFields_perm l).map Prod.fst).nodup_iff).mpr hnd
  have hne : (sortFields l).Pairwise (fun a b => a.1 ≠ b.1) := List.pairwise_map.mp hnd'
  exact ((sortFields_sorted l).and hne).imp (fun h => lt_of_le_of_ne h.1 h.2)

/-- Helper: any two permutations of one duplicate-free field list have the
same canonical sort. -/
theorem sortFields_eq_of_perm {α : Type} (l1 l2 : List (String × α)) (hp : l1.Perm l2)
    (hnd : (l1.map Prod.fst).Nodup) : sortFields l1 = sortFields l2 := by
  haveI : IsAntisymm (String × α) (fun a b => a.1 < b.1) :=
    ⟨fun a b h1 h2 => absurd (lt_trans h1 h2) (lt_irrefl _)⟩
  have hnd2 : (l2.map Prod.fst).Nodup := ((hp.map Prod.fst).nodup_iff).mp hnd
  have hperm : (sortFields l1).Perm (sortFields l2) :=
    ((sortFields_perm l1).trans hp).trans (sortFields_perm l2).symm
  exact List.eq_of_perm_of_sorted hperm (sortFields_strict l1 hnd) (sortFields_strict l2 hnd2)

/-- C2: canonicalization stable-sorts the field pairs into lexicographic
order of the field-name text; for every non-empty, duplicate-free field
list, every permutation of it canonicalizes to the very same field
sequence (hence the same aggregate type), equal field values giving equal
aggregates, and the result is a by-name-sorted permutation of the input. -/
theorem canonicalize_order_independent {α : Type} (l1 l2 : List (String × α))
    (hp : l1.Perm l2) (hnd : (l1.map Prod.fst).Nodup) (_hne : l1 ≠ []) :
    canonicalize l1 = canonicalize l2 ∧
    canonicalize l1 = .ok (sortFields l1) ∧
    (sortFields l1).Perm l1 ∧
    ((sortFields l1).map Prod.fst).Pairwise (· ≤ ·) := by
  have hnd2 : (l2.map Prod.fst).Nodup := ((hp.map Prod.fst).nodup_iff).mp hnd
  have h1 : canonicalize l1 = .ok (sortFields l1) := by
    rw [canonicalize, checkFields_ok l1 [] (by simpa)]
    rfl
  have h2 : canonicalize l2 = .ok (sortFields l2) := by
    rw [canonicalize, checkFields_ok l2 [] (by simpa)]
    rfl
  refine ⟨?_, h1, sortFields_perm l1, ?_⟩
  · rw [h1, h2, sortFields_eq_of_perm l1 l2 hp hnd]
  · exact List.pairwise_map.mpr (sortFields_sorted l1)

/-- Witness for C2 at the concrete pair of literals
`{ width: 1920, height: 1080 }` and `{ height: 1080, width: 1920 }`. -/
theorem canonicalize_order_independent_witness :
    (([(("width" : String), (1920 : Nat)), ("height", 1080)]).Perm
        [("height", 1080), ("width", 1920)] ∧
      (([(("width" : String), (1920 : Nat)), ("height", 1080)]).map Prod.fst).Nodup ∧
      ([(("width" : String), (1920 : Nat)), ("height", 1080)]) ≠ []) ∧
    (canonicalize [(("width" : String), (1920 : Nat)), ("height", 1080)] =
        canonicalize [("height", 1080), ("width", 1920)] ∧
      canonicalize [(("width" : String), (1920 : Nat)), ("height", 1080)] =
        .ok (sortFields [("width", 1920), ("height", 1080)]) ∧
      (sortFields [(("width" : String), (1920 : Nat)), ("height", 1080)]).Perm
        [("width", 1920), ("height", 1080)] ∧
      ((sortFields [(("width" : String), (1920 : Nat)), ("height", 1080)]).map
          Prod.fst).Pairwise (· ≤ ·)) :=
  ⟨⟨by decide, by decide, by decide⟩,
    canonicalize_order_independent _ _ (by decide) (by decide) (by decide)⟩

/-- C4: any well-formed field list containing two entries with the same name
is rejected by the struct-literal (and struct-type) parse with the
duplicate-field diagnostic, before any aggregate is formed. -/
theorem parse_rejects_duplicate {E : Type} (entries : List (String × Option E))
    (hdup : ¬ (entries.map Prod.fst).Nodup) :
    parseStru (entriesToks entries) = .error "field already defined" := by
  rw [parseStru, parseLoop_entriesToks, checkFields_fail entries [] (by simp) (by simpa)]
  rfl

/-- Witness for C4 at the concrete literal `{ x: 1, x: 2 }`. -/
theorem parse_rejects_duplicate_witness :
    (¬ (([(("x" : String), some (1 : Nat)), ("x", some 2)]).map Prod.fst).Nodup) ∧
    parseStru (entriesToks [(("x" : String), some (1 : Nat)), ("x", some 2)]) =
      .error "field already defined" :=
  ⟨by decide, parse_rejects_duplicate _ (by decide)⟩

/-- C9 (code evaluated at the failing input): the malformed token stream
`x y` (two identifiers with no separating comma or colon) is accepted by
the struct-literal parse, which silently drops the entry `x` and returns
the single-field list `{ y }` with no diagnostic. -/
theorem parse_silently_drops_entry :
    parseStru [Tok.ident "x", Tok.ident "y"] =
      Except.ok [(("y" : String), (none : Option Nat))] := by
  simp +decide [parseStru, parseLoop, sortFields, Except.map, List.mergeSort_singleton]

/-- Modelled from the spec: the typed search capability of the underlying
heterogeneous sequence (the external tuplez `Search` trait, consumed as an
opaque collaborator and absent from this repository's sources).  Given a
requested encoded name it locates a field pair with that name — the
position witness resolving, per the collaborator's own disambiguation rule,
to the first match — and `none` when no pair matches.  The consuming form
splits the sequence into the matched pair and the remaining pairs. -/
def searchTake {V : Type} (name : List Char) :
    List (List Char × V) → Option ((List Char × V) × List (List Char × V))
  | [] => none
  | (n, v) :: rest =>
    if n = name then some ((n, v), rest)
    else (searchTake name rest).map (fun p => (p.1, (n, v) :: p.2))

/-- Modelled from the spec: the referencing form of the same search
capability (tuplez `Search::get_ref` / `Search::get_mut`), yielding the
matched field pair itself, or `none` when no pair matches (in which case the
Rust program fails to type-check at the use site). -/
def searchGet {V : Type} (name : List Char) : List (List Char × V) → Option (List Char × V)
  | [] => none
  | (n, v) :: rest => if n = name then some (n, v) else searchGet name rest

/-- Embedding of `HasField::get_field` for tuples (structz
`src/has_field.rs`, lines 39-44): `&Search::get_ref(self).1`, the second
component of the located field pair. -/
def get_field {V : Type} (agg : List (List Char × V)) (name : List Char) : Option V :=
  (searchGet name agg).map Prod.snd

/-- Embedding of `HasField::take_field` for tuples (structz
`src/has_field.rs`, lines 53-55): `Search::take(self).0 .1` consumes the
whole aggregate and keeps only the value component of the matched pair. -/
def take_field {V : Type} (agg : List (List Char × V)) (name : List Char) : Option V :=
  (searchTake name agg).map (fun p => p.1.2)

/-- Embedding of an assignment through the mutable reference returned by
`HasField::get_field_mut` (structz `src/has_field.rs`, lines 46-51):
`&mut Search::get_mut(self).1` points at the value component of the located
field pair, so writing `v` through it replaces exactly that component. -/
def write_field {V : Type} (agg : List (List Char × V)) (name : List Char) (v : V) :
    List (List Char × V) :=
  match agg with
  | [] => []
  | (n, w) :: rest =>
    if n = name then (n, v) :: rest else (n, w) :: write_field rest name v

/-- C5: when the requested encoded name does not occur among an aggregate's
field names, no lookup witness can be derived: the search capability finds
nothing, so `get_field`, `get_field_mut` and `take_field` are statically
undefined for that name. -/
theorem absent_field_no_witness {V : Type} (agg : List (List Char × V)) (name : List Char)
    (h : name ∉ agg.map Prod.fst) :
    searchGet name agg = none ∧ searchTake name agg = none ∧
    get_field agg name = none ∧ take_field agg name = none := by
  have hget : searchGet name agg = none := by
    induction agg with
    | nil => rfl
    | cons p rest ih =>
      obtain ⟨n, v⟩ := p
      simp only [List.map_cons, List.mem_cons, not_or] at h
      rw [searchGet, if_neg (fun hn => h.1 hn.symm)]
      exact ih h.2
  have htake : searchTake name agg = none := by
    clear hget
    induction agg with
    | nil => rfl
    | cons p rest ih =>
      obtain ⟨n, v⟩ := p
      simp only [List.map_cons, List.mem_cons, not_or] at h
      rw [searchTake, if_neg (fun hn => h.1 hn.symm), ih h.2]
      rfl
  exact ⟨hget, htake, by rw [get_field, hget]; rfl, by rw [take_field, htake]; rfl⟩

/-- Witness for C5: accessing field `z` on an aggregate holding only the
fields `x` and `y` derives no witness. -/
theorem absent_field_no_witness_witness :
    (encode "z" ∉ ([(encode "x", (1 : Nat)), (encode "y", 2)]).map Prod.fst) ∧
    (searchGet (encode "z") [(encode "x", (1 : Nat)), (encode "y", 2)] = none ∧
      searchTake (encode "z") [(encode "x", (1 : Nat)), (encode "y", 2)] = none ∧
      get_field [(encode "x", (1 : Nat)), (encode "y", 2)] (encode "z") = none ∧
      take_field [(encode "x", (1 : Nat)), (encode "y", 2)] (encode "z") = none) :=
  ⟨by decide, absent_field_no_witness _ _ (by decide)⟩

/-- C6: on an aggregate with pairwise-distinct field names, `take_field` for
a contained field name returns by value exactly the value carried by the
field pair of that name, the entire aggregate being consumed and every
other field discarded. -/
theorem take_field_value {V : Type} (agg : List (List Char × V)) (name : List Char) (v : V)
    (hnd : (agg.map Prod.fst).Nodup) (hmem : (name, v) ∈ agg) :
    take_field agg name = some v := by
  induction agg with
  | nil => exact absurd hmem (List.not_mem_nil _)
  | cons p rest ih =>
    obtain ⟨n, w⟩ := p
    simp only [List.map_cons, List.nodup_cons] at hnd
    by_cases hn : n = name
    · subst hn
      rcases List.mem_cons.mp hmem with heq | hrest
      · injection heq with h1 h2
        subst h2
        rw [take_field, searchTake, if_pos rfl]
        rfl
      · exact absurd (List.mem_map.mpr ⟨(n, v), hrest, rfl⟩) hnd.1
    · rcases List.mem_cons.mp hmem with heq | hrest
      · exact absurd (congrArg Prod.fst heq).symm hn
      · have := ih hnd.2 hrest
        rw [take_field, searchTake, if_neg hn]
        rw [take_field] at this
        cases hsearch : searchTake name rest with
        | none => rw [hsearch] at this; exact absurd this (by simp)
        | some q =>
          rw [hsearch] at this
          simp only [Option.map_some'] at this ⊢
          exact this

/-- Witness for C6: consuming the `tags` field of the two-field aggregate
`{ age: 26, tags: 2 }` yields exactly the value stored under `tags`. -/
theorem take_field_value_witness :
    ((([(encode "age", (26 : Nat)), (encode "tags", 2)]).map Prod.fst).Nodup ∧
      ((encode "tags", (2 : Nat)) ∈ [(encode "age", (26 : Nat)), (encode "tags", 2)])) ∧
    take_field [(encode "age", (26 : Nat)), (encode "tags", 2)] (encode "tags") = some 2 :=
  ⟨⟨by decide, by decide⟩, take_field_value _ _ _ (by decide) (by decide)⟩

/-- C7: on an aggregate with pairwise-distinct field names, writing `v`
through the mutable reference obtained for a contained field name updates
exactly that field: reading it back yields `v`, and reading any other field
name yields its previous value. -/
theorem write_field_frame {V : Type} (agg : List (List Char × V))
    (name other : List Char) (v : V)
    (_hnd : (agg.map Prod.fst).Nodup) (hmem : name ∈ agg.map Prod.fst)
    (hother : other ≠ name) :
    get_field (write_field agg name v) name = some v ∧
    get_field (write_field agg name v) other = get_field agg other := by
  constructor
  · induction agg with
    | nil => exact absurd hmem (List.not_mem_nil _)
    | cons p rest ih =>
      obtain ⟨n, w⟩ := p
      by_cases hn : n = name
      · subst hn
        rw [write_field, if_pos rfl, get_field, searchGet, if_pos rfl]
        rfl
      · have hmem' : name ∈ rest.map Prod.fst := by
          rcases List.mem_cons.mp hmem with heq | h
          · exact absurd heq.symm hn
          · exact h
        have := ih (by
          simp only [List.map_cons, List.nodup_cons] at _hnd
          exact _hnd.2) hmem'
        rw [write_field, if_neg hn, get_field, searchGet, if_neg hn]
        rw [get_field] at this
        exact this
  · clear hmem _hnd
    induction agg with
    | nil => rfl
    | cons p rest ih =>
      obtain ⟨n, w⟩ := p
      by_cases hn : n = name
      · subst hn
        rw [write_field, if_pos rfl, get_field, searchGet, if_neg (fun h => hother h.symm),
          get_field, searchGet, if_neg (fun h => hother h.symm)]
      · by_cases ho : n = other
        · subst ho
          rw [write_field, if_neg hn, get_field, searchGet, if_pos rfl,
            get_field, searchGet, if_pos rfl]
        · rw [write_field, if_neg hn, get_field, searchGet, if_neg ho,
            get_field, searchGet, if_neg ho]
          exact ih

/-- Witness for C7: in `{ age: 26, name: 7 }`, writing `27` through the
mutable reference to `age` makes `age` read back `27` while `name` still
reads `7`. -/
theorem write_field_frame_witness :
    ((([(encode "age", (26 : Nat)), (encode "name", 7)]).map Prod.fst).Nodup ∧
      encode "age" ∈ ([(encode "age", (26 : Nat)), (encode "name", 7)]).map Prod.fst ∧
      encode "name" ≠ encode "age") ∧
    (get_field (write_field [(encode "age", (26 : Nat)), (encode "name", 7)]
        (encode "age") 27) (encode "age") = some 27 ∧
      get_field (write_field [(encode "age", (26 : Nat)), (encode "name", 7)]
        (encode "age") 27) (encode "name") =
        get_field [(encode "age", (26 : Nat)), (encode "name", 7)] (encode "name")) :=
  ⟨⟨by decide, by decide, by decide⟩,
    write_field_frame _ _ _ _ (by decide) (by decide) (by decide)⟩
